import Mathlib

set_option linter.unusedVariables false

namespace Pymor

/-!  Shallow embedding of the copy-on-write NumPy vector array
(`src/pymor/vectorarrays/numpy.py`) and of the operator-to-matrix compiler
(`src/pymor/algorithms/to_matrix.py`).  Scalars are modelled as rationals;
NumPy dtype promotion (`astype`/`promote_types`) is the identity in this
model, since all scalars live in one type.  -/

/-- A NumPy 2-d buffer: a block of `rows` (the full capacity, possibly more
rows than the logical length of the arrays viewing it), each row of length
`width` (`_array` in the source; `width` is `shape[1]`). -/
structure Buffer where
  width : Nat
  rows : List (List ℚ)
deriving DecidableEq

/-- The heap of shared state: numpy buffers (`_array` objects) and shared
reference counters (`_refcount` cells, one-element lists in the source),
addressed by index.  Fresh objects are appended at the end. -/
structure Store where
  arrays : List Buffer
  counts : List Nat
deriving DecidableEq

/-- One `NumpyVectorArray` handle: which buffer it views (`_array`), which
shared counter it holds (`_refcount`) and its logical length (`_len`). -/
structure Handle where
  array : Nat
  rc : Nat
  len : Nat
deriving DecidableEq

/-- Contents of the refcount cell `i` (`_refcount[0]`). -/
def countAt (s : Store) (i : Nat) : Nat := s.counts.getD i 0

/-- The buffer with id `i`. -/
def bufAt (s : Store) (i : Nat) : Buffer := s.arrays.getD i ⟨0, []⟩

/-- Overwrite buffer `i` (an in-place numpy mutation or a rebinding of
`self._array`, which other aliasing handles observe through the store). -/
def setArr (s : Store) (i : Nat) (b : Buffer) : Store :=
  { s with arrays := s.arrays.set i b }

/-- The logical contents of a handle: `self._array[:self._len]`. -/
def logicalRows (s : Store) (h : Handle) : List (List ℚ) :=
  (bufAt s h.array).rows.take h.len

/-- Version flag from `pymor.core` (not part of the inspected source).
Modelled from the spec: the flag works around fancy-indexing quirks of
NumPy older than 1.9 and is `false` on any modern installation; every
branch it guards concerns only empty arrays. -/
def NUMPY_INDEX_QUIRK : Bool := false

/-- `NumpyVectorArray._deep_copy`: copy the buffer, decrement the shared
counter, attach a fresh counter equal to 1. -/
def deep_copy (s : Store) (h : Handle) : Store × Handle :=
  ({ arrays := s.arrays ++ [bufAt s h.array],
     counts := (s.counts.set h.rc (countAt s h.rc - 1)) ++ [1] },
   ⟨s.arrays.length, s.counts.length, h.len⟩)

/-- The copy-on-write prologue every mutator runs:
`if self._refcount[0] > 1: self._deep_copy()`. -/
def cow (s : Store) (h : Handle) : Store × Handle :=
  if 1 < countAt s h.rc then deep_copy s h else (s, h)

/-- `NumpyVectorArray.copy(ind, deep)`.  The shallow whole-array path
aliases the buffer and increments the shared counter; every other path
materialises a fresh buffer with its own counter (the source's
`OWNDATA` fix-up is the identity here because the model always copies
the selected rows into the fresh buffer). -/
def copy (s : Store) (h : Handle) (ind : Option (List Nat)) (deep : Bool) :
    Store × Handle :=
  if ¬ deep ∧ ind = none then
    ({ s with counts := s.counts.set h.rc (countAt s h.rc + 1) },
     ⟨h.array, h.rc, h.len⟩)
  else
    let buf := bufAt s h.array
    if NUMPY_INDEX_QUIRK ∧ h.len = 0 then
      ({ arrays := s.arrays ++ [⟨buf.width, []⟩], counts := s.counts ++ [1] },
       ⟨s.arrays.length, s.counts.length, 0⟩)
    else
      match ind with
      | none =>
          ({ arrays := s.arrays ++ [⟨buf.width, buf.rows.take h.len⟩],
             counts := s.counts ++ [1] },
           ⟨s.arrays.length, s.counts.length, h.len⟩)
      | some l =>
          ({ arrays := s.arrays ++ [⟨buf.width, l.map (fun i => buf.rows.getD i [])⟩],
             counts := s.counts ++ [1] },
           ⟨s.arrays.length, s.counts.length, l.length⟩)

/-- `NumpyVectorArray.remove(ind)` for `ind = None` or a list of indices
(the scalar-index branch of the source is not needed by the verified
properties).  The trailing `OWNDATA` copy of the source is the identity
here because fancy indexing already yields an owned buffer in the model. -/
def remove (s : Store) (h : Handle) (ind : Option (List Nat)) : Store × Handle :=
  let p := cow s h
  let s1 := p.1
  let h1 := p.2
  let buf := bufAt s1 h1.array
  match ind with
  | none =>
      (setArr s1 h1.array ⟨buf.width, []⟩, { h1 with len := 0 })
  | some l =>
      if l.length = 0 then (s1, h1)
      else
        let remaining := (List.range h1.len).filter (fun i => decide (i ∉ l))
        (setArr s1 h1.array ⟨buf.width, remaining.map (fun i => buf.rows.getD i [])⟩,
         { h1 with len := remaining.length })

/-- `NumpyVectorArray.append(other, remove_from_other)`.  Dtype promotion
(`astype`) is the identity in this model.  The capacity test
`len_other <= self._array.shape[0] - self._len` is taken over ℤ to match
Python's signed arithmetic. -/
def append (s : Store) (h other : Handle) (removeFromOther : Bool) :
    Store × Handle × Handle :=
  let p := cow s h
  let s1 := p.1
  let h1 := p.2
  let q := if removeFromOther ∧ 1 < countAt s1 other.rc
           then deep_copy s1 other else (s1, other)
  let s2 := q.1
  let o1 := q.2
  let lenOther := o1.len
  let buf := bufAt s2 h1.array
  let obuf := bufAt s2 o1.array
  let s3 :=
    if (lenOther : ℤ) ≤ (buf.rows.length : ℤ) - (h1.len : ℤ) then
      setArr s2 h1.array
        ⟨buf.width,
         buf.rows.take h1.len ++ obuf.rows.take lenOther
           ++ buf.rows.drop (h1.len + lenOther)⟩
    else
      setArr s2 h1.array
        ⟨buf.width, buf.rows.take h1.len ++ obuf.rows.take lenOther⟩
  let h2 := { h1 with len := h1.len + lenOther }
  if removeFromOther then
    let r := remove s3 o1 none
    (r.1, h2, r.2)
  else
    (s3, h2, o1)

/-- Scalar-or-vector coefficient (`alpha` may be a number or a 1-d
`np.ndarray` with one entry per selected row). -/
inductive Alpha where
  | scalar (a : ℚ)
  | vec (v : List ℚ)
deriving DecidableEq

/-- `np.all(alpha == c)` (true on an empty coefficient array, as in NumPy). -/
def Alpha.allEq : Alpha → ℚ → Bool
  | .scalar a, c => a = c
  | .vec v, c => v.all (fun x => x = c)

/-- The coefficient used for the `p`-th selected row (a scalar broadcasts). -/
def Alpha.coeff : Alpha → Nat → ℚ
  | .scalar a, _ => a
  | .vec v, p => v.getD p 0

/-- Row selection argument `ind`: `None`, a single number, or a list. -/
inductive Ind where
  | all
  | single (i : Nat)
  | list (l : List Nat)
deriving DecidableEq

def Ind.isList : Ind → Bool
  | .list _ => true
  | _ => false

/-- The selected row indices, in selection order (`None` selects
`0, ..., len-1`). -/
def Ind.sel : Ind → Nat → List Nat
  | .all, len => List.range len
  | .single i, _ => [i]
  | .list l, _ => l

/-- The operand row for the `p`-th selected row: `x` broadcasts when it has
exactly one row (`len(x) == 1`), otherwise its `p`-th row is used. -/
def brow (B : List (List ℚ)) (p : Nat) : List ℚ :=
  if B.length = 1 then B.getD 0 [] else B.getD p []

/-- In-place update of the rows selected by `S`: row `r` becomes
`g p (row r)` when `r` is the `p`-th selected index, and is kept otherwise
(the NumPy `self._array[ind] op= ...` assignments; `ind` is unique by
`check_ind_unique`). -/
def selUpd (rows : List (List ℚ)) (S : List Nat) (g : Nat → List ℚ → List ℚ) :
    List (List ℚ) :=
  (List.range rows.length).map fun r =>
    match S.findIdx? (fun j => j == r) with
    | some p => g p (rows.getD r [])
    | none => rows.getD r []

/-- `NumpyVectorArray.scal(alpha)` for `ind = None` (the indexed variants
are not needed by the verified properties): multiply the logical rows by
`alpha`, after the copy-on-write prologue. -/
def scal (s : Store) (h : Handle) (alpha : Alpha) : Store × Handle :=
  let p := cow s h
  let s1 := p.1
  let h1 := p.2
  if NUMPY_INDEX_QUIRK ∧ h1.len = 0 then (s1, h1)
  else
    let buf := bufAt s1 h1.array
    let rows' :=
      ((List.range h1.len).map fun i =>
        (buf.rows.getD i []).map (fun t => t * alpha.coeff i))
      ++ buf.rows.drop h1.len
    (setArr s1 h1.array ⟨buf.width, rows'⟩, h1)

/-- `NumpyVectorArray.axpy(alpha, x, ind)`: copy-on-write prologue, the
NumPy<1.9 quirk rewrite, the uniformly-zero early return, then one of the
three update branches (`+= B`, `-= B`, `+= B * alpha`).  Dtype promotion is
the identity in this model. -/
def axpy (s : Store) (h : Handle) (alpha : Alpha) (x : Handle) (ind : Ind) :
    Store × Handle :=
  let p := cow s h
  let s1 := p.1
  let h1 := p.2
  let ind1 := if NUMPY_INDEX_QUIRK ∧ h1.len = 0 ∧ ind.isList then Ind.all else ind
  if alpha.allEq 0 then (s1, h1)
  else
    let B := (bufAt s1 x.array).rows.take x.len
    let buf := bufAt s1 h1.array
    let S := ind1.sel h1.len
    let rows' :=
      if alpha.allEq 1 then
        selUpd buf.rows S (fun p row => List.zipWith (fun t b => t + b) row (brow B p))
      else if alpha.allEq (-1) then
        selUpd buf.rows S (fun p row => List.zipWith (fun t b => t - b) row (brow B p))
      else
        selUpd buf.rows S
          (fun p row => List.zipWith (fun t b => t + alpha.coeff p * b) row (brow B p))
    (setArr s1 h1.array ⟨buf.width, rows'⟩, h1)

/-- The general multiply-and-add branch of `axpy` applied unconditionally
(the reference the `alpha == 1` / `alpha == -1` fast paths are compared
against); everything else — prologue, quirk rewrite, zero early return —
is as in `axpy`. -/
def axpyGeneric (s : Store) (h : Handle) (alpha : Alpha) (x : Handle) (ind : Ind) :
    Store × Handle :=
  let p := cow s h
  let s1 := p.1
  let h1 := p.2
  let ind1 := if NUMPY_INDEX_QUIRK ∧ h1.len = 0 ∧ ind.isList then Ind.all else ind
  if alpha.allEq 0 then (s1, h1)
  else
    let B := (bufAt s1 x.array).rows.take x.len
    let buf := bufAt s1 h1.array
    let S := ind1.sel h1.len
    let rows' :=
      selUpd buf.rows S
        (fun p row => List.zipWith (fun t b => t + alpha.coeff p * b) row (brow B p))
    (setArr s1 h1.array ⟨buf.width, rows'⟩, h1)

/-- First index (NumPy `argmax` keeps the first maximum) and value of the
running maximum over the remaining entries `l`, the next entry having
index `i`, with current best index `bi` and best value `bv`. -/
def argmaxAux : List ℚ → Nat → Nat → ℚ → Nat × ℚ
  | [], _, bi, bv => (bi, bv)
  | a :: t, i, bi, bv =>
      if bv < |a| then argmaxAux t (i + 1) i |a|
      else argmaxAux t (i + 1) bi bv

/-- `np.argmax(np.abs(r))` together with the attained magnitude
(`A[i, max_ind[i]]` after `A = np.abs(A)`). -/
def argmaxAbs : List ℚ → Nat × ℚ
  | [] => (0, 0)
  | a :: t => argmaxAux t 1 0 |a|

/-- `NumpyVectorArray.amax`: the assertion `self.dim > 0` is modelled as
returning `none`; the following zero-width sentinel branch of the source
(`if self._array.shape[1] == 0`) is kept verbatim even though the
assertion makes it unreachable (`dim` *is* `shape[1]`). -/
def amax (s : Store) (h : Handle) : Option (List ℤ × List ℚ) :=
  let buf := bufAt s h.array
  if buf.width = 0 then none
  else if buf.width = 0 then
    some (List.replicate h.len (-1), List.replicate h.len 0)
  else
    let A := buf.rows.take h.len
    some (A.map (fun r => ((argmaxAbs r).1 : ℤ)),
          A.map (fun r => (argmaxAbs r).2))

/-! ## The operator-to-matrix compiler (`src/pymor/algorithms/to_matrix.py`) -/

/-- A scipy sparse storage scheme name. -/
inductive SparseScheme where
  | bsr | coo | csc | csr | dia | dok | lil
deriving DecidableEq

/-- Requested output format: `'dense'` or one sparse scheme; the entry point
also accepts `None` (modelled as `Option MatFormat`). -/
inductive MatFormat where
  | dense
  | sparse (scheme : SparseScheme)
deriving DecidableEq

/-- A concrete matrix as produced by the rules: its value together with its
representation (`none` = dense `np.ndarray`, `some sch` = scipy sparse
matrix in scheme `sch`); `sps.issparse` is `scheme.isSome`. -/
structure MatRep (r c : Nat) where
  scheme : Option SparseScheme
  val : Matrix (Fin r) (Fin c) ℚ

/-- Scheme of the transpose of a sparse matrix (scipy swaps the compressed
axes: `csr.T` is `csc` and vice versa; other schemes are not inspected by
any verified property and are kept unchanged). -/
def transposeScheme : SparseScheme → SparseScheme
  | .csr => .csc
  | .csc => .csr
  | sch => sch

/-- `.T` on a rule result. -/
def MatRep.T {r c : Nat} (A : MatRep r c) : MatRep c r :=
  ⟨A.scheme.map transposeScheme, A.val.transpose⟩

/-- `.dot` on rule results: the matrix product; the result is sparse iff
some operand is sparse (a representative compressed scheme is recorded —
no verified property inspects the scheme of a product). -/
def MatRep.dot {r m c : Nat} (A : MatRep r m) (B : MatRep m c) : MatRep r c :=
  ⟨if A.scheme.isSome ∨ B.scheme.isSome then some .csr else none, A.val * B.val⟩

/-- Modelled from the spec: `scipy.linalg.solve` / `scipy.sparse.linalg.spsolve`
(external to the inspected source) are exact direct solves — for a
nonsingular `S` they return the unique `M` with `S * M = B`; written with
the adjugate so that the definition is executable. -/
def solveMat {n m : Nat} (S : Matrix (Fin n) (Fin n) ℚ)
    (B : Matrix (Fin n) (Fin m) ℚ) : Matrix (Fin n) (Fin m) ℚ :=
  (S.det)⁻¹ • (S.adjugate * B)

/-- Modelled from the spec: the operator-algebra nodes
(`pymor.operators.*`, whose class declarations are not part of the
inspected source).  `Op r c` describes a linear map with range dimension
`r` and source dimension `c`; fields follow the attribute accesses in
`to_matrix.py` and the spec's data model (§3): a leaf stores a concrete
matrix and its sparse/dense storage, an adjoint stores the inner operator
with optional source/range inner-product operators (the four
presence/absence combinations of the two optional fields are spelled out
as four constructors, since an indexed inductive cannot nest `Option`),
a concatenation stores `second ∘ first`, and identity/zero store only
their dimensions.  Variants not referenced by any verified property
(block assembly, linear combination, vector-array leaf, component
projection) are omitted. -/
inductive Op : Nat → Nat → Type where
  | matOp {r c : Nat} (stored : Option SparseScheme)
      (m : Matrix (Fin r) (Fin c) ℚ) : Op r c
  | adjointOp {r c : Nat} (operator : Op r c) : Op c r
  | adjointOpS {r c : Nat} (operator : Op r c)
      (source_product : Op c c) : Op c r
  | adjointOpR {r c : Nat} (operator : Op r c)
      (range_product : Op r r) : Op c r
  | adjointOpSR {r c : Nat} (operator : Op r c)
      (source_product : Op c c) (range_product : Op r r) : Op c r
  | concatOp {r m c : Nat} (second : Op r m) (first : Op m c) : Op r c
  | identityOp (n : Nat) : Op n n
  | zeroOp (r c : Nat) : Op r c

/-- `ToMatrixRules.action_NumpyMatrixOperator`: return the stored matrix
unchanged for `format=None`, densified for `'dense'`, re-encoded for a
sparse scheme. -/
def actionMat {r c : Nat} (stored : Option SparseScheme)
    (m : Matrix (Fin r) (Fin c) ℚ) (fmt : Option MatFormat) : MatRep r c :=
  match fmt with
  | none => ⟨stored, m⟩
  | some .dense => ⟨none, m⟩
  | some (.sparse f) => ⟨some f, m⟩

/-- The range-product step of `action_AdjointOperator`: keep the sparse
operand acting first via the transposed product when no format is pinned,
`res` is dense and the product matrix is sparse; otherwise multiply
directly. -/
def adjRangeStep {r c : Nat} (fmt : Option MatFormat) (res : MatRep c r)
    (range_product : MatRep r r) : MatRep c r :=
  if fmt = none ∧ res.scheme = none ∧ range_product.scheme.isSome then
    ((range_product.T).dot (res.T)).T
  else
    res.dot range_product

/-- The source-product step of `action_AdjointOperator`: a dense direct
solve when the inner-product matrix is dense, a sparse direct solve
otherwise (both are exact; `spsolve` returns a result that is sparse iff
the right-hand side is, which the scheme mirrors). -/
def adjSolveStep {r c : Nat} (source_product : MatRep c c) (res : MatRep c r) :
    MatRep c r :=
  if source_product.scheme = none then
    ⟨none, solveMat source_product.val res.val⟩
  else
    ⟨res.scheme, solveMat source_product.val res.val⟩

/-- The final re-encoding of `action_AdjointOperator`:
`if format is not None and format != 'dense'`, re-encode into the
requested sparse scheme. -/
def adjFinal {r c : Nat} (fmt : Option MatFormat) (res : MatRep r c) :
    MatRep r c :=
  match fmt with
  | some (.sparse f) => ⟨some f, res.val⟩
  | _ => res

/-- `ToMatrixRules.apply`: the exhaustive dispatch on the node variant,
recursing into children with the same requested format. -/
def toMatrixR : {r c : Nat} → Op r c → Option MatFormat → MatRep r c
  | _, _, .matOp stored m, fmt => actionMat stored m fmt
  | _, _, .adjointOp oper, fmt =>
      adjFinal fmt ((toMatrixR oper fmt).T)
  | _, _, .adjointOpR oper rp, fmt =>
      adjFinal fmt (adjRangeStep fmt ((toMatrixR oper fmt).T) (toMatrixR rp fmt))
  | _, _, .adjointOpS oper sp, fmt =>
      adjFinal fmt (adjSolveStep (toMatrixR sp fmt) ((toMatrixR oper fmt).T))
  | _, _, .adjointOpSR oper sp rp, fmt =>
      adjFinal fmt
        (adjSolveStep (toMatrixR sp fmt)
          (adjRangeStep fmt ((toMatrixR oper fmt).T) (toMatrixR rp fmt)))
  | _, _, .concatOp second first, fmt =>
      let f := toMatrixR first fmt
      let sm := toMatrixR second fmt
      if fmt = none ∧ sm.scheme = none ∧ f.scheme.isSome then
        ((f.T).dot (sm.T)).T
      else
        sm.dot f
  | _, _, .identityOp n, fmt =>
      match fmt with
      | some .dense => ⟨none, (1 : Matrix (Fin n) (Fin n) ℚ)⟩
      | some (.sparse f) => ⟨some f, (1 : Matrix (Fin n) (Fin n) ℚ)⟩
      | none => ⟨some .csc, (1 : Matrix (Fin n) (Fin n) ℚ)⟩
  | _, _, .zeroOp r c, fmt =>
      match fmt with
      | none => ⟨some .csc, (0 : Matrix (Fin r) (Fin c) ℚ)⟩
      | some .dense => ⟨none, (0 : Matrix (Fin r) (Fin c) ℚ)⟩
      | some (.sparse f) => ⟨some f, (0 : Matrix (Fin r) (Fin c) ℚ)⟩

/-- The error surfaced when the `format` argument of the entry point fails
the eager validation (`assert format is None or format in (...)`). -/
inductive ToMatrixError where
  | invalidFormat
deriving DecidableEq

/-- The recognized format strings of the entry point. -/
def recognizedFormats : List String :=
  ["dense", "bsr", "coo", "csc", "csr", "dia", "dok", "lil"]

/-- `to_matrix(op, format, mu)`: validate the format string first (an
unrecognized string fails before any assembly or rule runs; assembly
itself resolves parameters in an external collaborator and is the
identity on the already-assembled trees modelled here), then apply the
rule table. -/
def to_matrix {r c : Nat} (op : Op r c) (format : Option String) :
    Except ToMatrixError (MatRep r c) :=
  match format with
  | none => .ok (toMatrixR op none)
  | some f =>
      if f = "dense" then .ok (toMatrixR op (some .dense))
      else if f = "bsr" then .ok (toMatrixR op (some (.sparse .bsr)))
      else if f = "coo" then .ok (toMatrixR op (some (.sparse .coo)))
      else if f = "csc" then .ok (toMatrixR op (some (.sparse .csc)))
      else if f = "csr" then .ok (toMatrixR op (some (.sparse .csr)))
      else if f = "dia" then .ok (toMatrixR op (some (.sparse .dia)))
      else if f = "dok" then .ok (toMatrixR op (some (.sparse .dok)))
      else if f = "lil" then .ok (toMatrixR op (some (.sparse .lil)))
      else .error .invalidFormat

/-! ## Store bookkeeping lemmas -/

theorem getD_set_self {α : Type} (l : List α) (i : Nat) (a d : α)
    (h : i < l.length) : (l.set i a).getD i d = a := by
  rw [List.getD_eq_getD_get?, List.get?_eq_getElem?, List.getElem?_set_eq_of_lt a h]
  rfl

theorem getD_set_ne {α : Type} (l : List α) (i j : Nat) (a d : α)
    (h : j ≠ i) : (l.set i a).getD j d = l.getD j d := by
  rw [List.getD_eq_getD_get?, List.get?_eq_getElem?, List.getElem?_set_ne (Ne.symm h),
    ← List.get?_eq_getElem?, ← List.getD_eq_getD_get?]

theorem getD_append_self {α : Type} (l : List α) (a d : α) :
    (l ++ [a]).getD l.length d = a := by
  rw [List.getD_append_right _ _ _ _ (Nat.le_refl _), Nat.sub_self]
  rfl

theorem deep_copy_arrays_length (s : Store) (h : Handle) :
    (deep_copy s h).1.arrays.length = s.arrays.length + 1 := by
  simp [deep_copy]

theorem deep_copy_handle (s : Store) (h : Handle) :
    (deep_copy s h).2 = ⟨s.arrays.length, s.counts.length, h.len⟩ := rfl

theorem deep_copy_buf_new (s : Store) (h : Handle) :
    bufAt (deep_copy s h).1 s.arrays.length = bufAt s h.array := by
  simp only [deep_copy, bufAt]
  exact getD_append_self _ _ _

theorem deep_copy_buf_old (s : Store) (h : Handle) (j : Nat)
    (hj : j < s.arrays.length) : bufAt (deep_copy s h).1 j = bufAt s j := by
  simp only [deep_copy, bufAt]
  exact List.getD_append _ _ _ _ hj

theorem deep_copy_count_new (s : Store) (h : Handle) :
    countAt (deep_copy s h).1 s.counts.length = 1 := by
  simp only [deep_copy, countAt]
  have : (s.counts.set h.rc (countAt s h.rc - 1)).length = s.counts.length :=
    List.length_set _ _ _
  rw [← this]
  exact getD_append_self _ _ _

theorem deep_copy_count_self (s : Store) (h : Handle)
    (hr : h.rc < s.counts.length) :
    countAt (deep_copy s h).1 h.rc = countAt s h.rc - 1 := by
  simp only [deep_copy, countAt]
  rw [List.getD_append _ _ _ _ (by simpa using hr)]
  exact getD_set_self _ _ _ _ hr

theorem cow_of_not_shared (s : Store) (h : Handle)
    (hc : ¬ 1 < countAt s h.rc) : cow s h = (s, h) := by
  simp [cow, hc]

theorem cow_of_shared (s : Store) (h : Handle)
    (hc : 1 < countAt s h.rc) : cow s h = deep_copy s h := by
  simp [cow, hc]

theorem cow_len (s : Store) (h : Handle) : (cow s h).2.len = h.len := by
  by_cases hc : 1 < countAt s h.rc
  · rw [cow_of_shared s h hc]; rfl
  · rw [cow_of_not_shared s h hc]

theorem cow_buf_self (s : Store) (h : Handle) :
    bufAt (cow s h).1 (cow s h).2.array = bufAt s h.array := by
  by_cases hc : 1 < countAt s h.rc
  · rw [cow_of_shared s h hc]
    exact deep_copy_buf_new s h
  · rw [cow_of_not_shared s h hc]

theorem cow_buf_frame (s : Store) (h : Handle) (j : Nat)
    (hj : j < s.arrays.length) : bufAt (cow s h).1 j = bufAt s j := by
  by_cases hc : 1 < countAt s h.rc
  · rw [cow_of_shared s h hc]
    exact deep_copy_buf_old s h j hj
  · rw [cow_of_not_shared s h hc]

theorem cow_target_lt (s : Store) (h : Handle) (hA : h.array < s.arrays.length) :
    (cow s h).2.array < (cow s h).1.arrays.length := by
  by_cases hc : 1 < countAt s h.rc
  · rw [cow_of_shared s h hc, deep_copy_handle, deep_copy_arrays_length]
    exact Nat.lt_succ_self _
  · rw [cow_of_not_shared s h hc]
    exact hA

theorem cow_arrays_le (s : Store) (h : Handle) :
    s.arrays.length ≤ (cow s h).1.arrays.length := by
  by_cases hc : 1 < countAt s h.rc
  · rw [cow_of_shared s h hc, deep_copy_arrays_length]
    exact Nat.le_succ _
  · rw [cow_of_not_shared s h hc]

theorem bufAt_setArr_self (s : Store) (i : Nat) (b : Buffer)
    (hi : i < s.arrays.length) : bufAt (setArr s i b) i = b := by
  simp only [setArr, bufAt]
  exact getD_set_self _ _ _ _ hi

theorem bufAt_setArr_ne (s : Store) (i j : Nat) (b : Buffer)
    (hj : j ≠ i) : bufAt (setArr s i b) j = bufAt s j := by
  simp only [setArr, bufAt]
  exact getD_set_ne _ _ _ _ _ hj

theorem countAt_setArr (s : Store) (i : Nat) (b : Buffer) (j : Nat) :
    countAt (setArr s i b) j = countAt s j := rfl

theorem setArr_arrays_length (s : Store) (i : Nat) (b : Buffer) :
    (setArr s i b).arrays.length = s.arrays.length := List.length_set _ _ _

/-! ## Value-level lemmas about the conversion rules -/

@[simp] theorem MatRep.T_val {r c : Nat} (A : MatRep r c) :
    (A.T).val = A.val.transpose := rfl

@[simp] theorem MatRep.dot_val {r m c : Nat} (A : MatRep r m) (B : MatRep m c) :
    (A.dot B).val = A.val * B.val := rfl

theorem adjFinal_val {r c : Nat} (fmt : Option MatFormat) (res : MatRep r c) :
    (adjFinal fmt res).val = res.val := by
  match fmt with
  | none => rfl
  | some .dense => rfl
  | some (.sparse f) => rfl

theorem adjRangeStep_val {r c : Nat} (fmt : Option MatFormat) (res : MatRep c r)
    (rp : MatRep r r) : (adjRangeStep fmt res rp).val = res.val * rp.val := by
  unfold adjRangeStep
  split
  · simp only [MatRep.T_val, MatRep.dot_val, ← Matrix.transpose_mul,
      Matrix.transpose_transpose]
  · rfl

theorem adjSolveStep_val {r c : Nat} (sp : MatRep c c) (res : MatRep c r) :
    (adjSolveStep sp res).val = solveMat sp.val res.val := by
  unfold adjSolveStep
  split <;> rfl

theorem solveMat_mul {n m : Nat} (S : Matrix (Fin n) (Fin n) ℚ)
    (B : Matrix (Fin n) (Fin m) ℚ) (hS : S.det ≠ 0) :
    S * solveMat S B = B := by
  unfold solveMat
  rw [Matrix.mul_smul, ← Matrix.mul_assoc, Matrix.mul_adjugate,
    Matrix.smul_mul, Matrix.one_mul, smul_smul, inv_mul_cancel₀ hS, one_smul]

theorem solveMat_unique {n m : Nat} (S : Matrix (Fin n) (Fin n) ℚ)
    (B M : Matrix (Fin n) (Fin m) ℚ) (hS : S.det ≠ 0) (hM : S * M = B) :
    M = solveMat S B := by
  unfold solveMat
  rw [← hM, ← Matrix.mul_assoc, Matrix.adjugate_mul, Matrix.smul_mul,
    Matrix.one_mul, smul_smul, inv_mul_cancel₀ hS, one_smul]

/-- C2: for an `AdjointOperator` with inner operator converting to `A`,
range product converting to `R` and nonsingular source product converting
to `S`, `to_matrix` returns the unique `M` with `S·M = Aᵀ·R` (an exact
direct solve); with only a range product it returns `Aᵀ·R`; with neither
product it returns `Aᵀ`. -/
theorem C2_adjoint_solve {r c : Nat} (inner : Op r c) (sp : Op c c) (rp : Op r r)
    (fmt : Option MatFormat) (hS : (toMatrixR sp fmt).val.det ≠ 0) :
    ((toMatrixR sp fmt).val * (toMatrixR (Op.adjointOpSR inner sp rp) fmt).val
        = (toMatrixR inner fmt).val.transpose * (toMatrixR rp fmt).val
      ∧ ∀ M' : Matrix (Fin c) (Fin r) ℚ,
          (toMatrixR sp fmt).val * M'
              = (toMatrixR inner fmt).val.transpose * (toMatrixR rp fmt).val
            → M' = (toMatrixR (Op.adjointOpSR inner sp rp) fmt).val)
    ∧ (toMatrixR (Op.adjointOpR inner rp) fmt).val
        = (toMatrixR inner fmt).val.transpose * (toMatrixR rp fmt).val
    ∧ (toMatrixR (Op.adjointOp inner) fmt).val
        = (toMatrixR inner fmt).val.transpose := by
  have hSR : (toMatrixR (Op.adjointOpSR inner sp rp) fmt).val
      = solveMat (toMatrixR sp fmt).val
          ((toMatrixR inner fmt).val.transpose * (toMatrixR rp fmt).val) := by
    show (adjFinal fmt
        (adjSolveStep (toMatrixR sp fmt)
          (adjRangeStep fmt ((toMatrixR inner fmt).T) (toMatrixR rp fmt)))).val = _
    rw [adjFinal_val, adjSolveStep_val, adjRangeStep_val, MatRep.T_val]
  refine ⟨⟨?_, ?_⟩, ?_, ?_⟩
  · rw [hSR]
    exact solveMat_mul _ _ hS
  · intro M' hM'
    rw [hSR]
    exact solveMat_unique _ _ _ hS hM'
  · show (adjFinal fmt
        (adjRangeStep fmt ((toMatrixR inner fmt).T) (toMatrixR rp fmt))).val = _
    rw [adjFinal_val, adjRangeStep_val, MatRep.T_val]
  · show (adjFinal fmt ((toMatrixR inner fmt).T)).val = _
    rw [adjFinal_val, MatRep.T_val]

theorem C2_adjoint_solve_witness :
    ((toMatrixR (Op.matOp none (Matrix.of fun (_ _ : Fin 1) => (5 : ℚ))) none).val.det ≠ 0)
    ∧ (toMatrixR (Op.matOp none (Matrix.of fun (_ _ : Fin 1) => (5 : ℚ))) none).val
        * (toMatrixR (Op.adjointOpSR
            (Op.matOp none (Matrix.of fun (_ _ : Fin 1) => (2 : ℚ)))
            (Op.matOp none (Matrix.of fun (_ _ : Fin 1) => (5 : ℚ)))
            (Op.matOp none (Matrix.of fun (_ _ : Fin 1) => (3 : ℚ)))) none).val
      = (toMatrixR (Op.matOp none (Matrix.of fun (_ _ : Fin 1) => (2 : ℚ))) none).val.transpose
        * (toMatrixR (Op.matOp none (Matrix.of fun (_ _ : Fin 1) => (3 : ℚ))) none).val := by
  have hdet : (toMatrixR (Op.matOp none (Matrix.of fun (_ _ : Fin 1) => (5 : ℚ))) none).val.det
      ≠ 0 := by
    show (Matrix.of fun (_ _ : Fin 1) => (5 : ℚ)).det ≠ 0
    rw [Matrix.det_fin_one]
    norm_num
  exact ⟨hdet, (C2_adjoint_solve _ _ _ none hdet).1.1⟩

/-- C3: a `Concatenation` (apply `first`, then `second`) converts to the
product `A·B` of the children's matrices, on every branch; in particular
the transposed product `first.T.dot(second.T).T` taken on the
sparse-first/dense-second branch equals the direct product
`second.dot(first)`. -/
theorem C3_concat_product {r m c : Nat} (second : Op r m) (first : Op m c)
    (fmt : Option MatFormat) :
    (toMatrixR (Op.concatOp second first) fmt).val
        = (toMatrixR second fmt).val * (toMatrixR first fmt).val
      ∧ ((toMatrixR first fmt).val.transpose
            * (toMatrixR second fmt).val.transpose).transpose
        = (toMatrixR second fmt).val * (toMatrixR first fmt).val := by
  constructor
  · show (if fmt = none ∧ (toMatrixR second fmt).scheme = none
            ∧ (toMatrixR first fmt).scheme.isSome then
          (((toMatrixR first fmt).T).dot ((toMatrixR second fmt).T)).T
        else (toMatrixR second fmt).dot (toMatrixR first fmt)).val = _
    split
    · simp only [MatRep.T_val, MatRep.dot_val, ← Matrix.transpose_mul,
        Matrix.transpose_transpose]
    · rfl
  · rw [← Matrix.transpose_mul, Matrix.transpose_transpose]

/-- C8: a `ZeroOperator` of range dimension `r` and source dimension `c`
converts to the all-zero `r × c` matrix; with `format=None` the result is
in the default sparse scheme (csc, not dense), with `'dense'` it is a
dense zero matrix, and with a sparse scheme it is a zero matrix in that
scheme. -/
theorem C8_zero_operator (r c : Nat) :
    ((∀ i j, (toMatrixR (Op.zeroOp r c) none).val i j = 0)
      ∧ (toMatrixR (Op.zeroOp r c) none).scheme = some SparseScheme.csc)
    ∧ ((∀ i j, (toMatrixR (Op.zeroOp r c) (some MatFormat.dense)).val i j = 0)
      ∧ (toMatrixR (Op.zeroOp r c) (some MatFormat.dense)).scheme = none)
    ∧ ∀ sch : SparseScheme,
        (∀ i j, (toMatrixR (Op.zeroOp r c) (some (MatFormat.sparse sch))).val i j = 0)
        ∧ (toMatrixR (Op.zeroOp r c) (some (MatFormat.sparse sch))).scheme = some sch := by
  exact ⟨⟨fun i j => rfl, rfl⟩, ⟨fun i j => rfl, rfl⟩, fun sch => ⟨fun i j => rfl, rfl⟩⟩

/-- C9: the entry point `to_matrix` rejects every format string outside
the recognized set with `InvalidFormatError`, for every operator tree —
the check happens before assembly and before any rule is invoked, so no
rule ever runs for such a call. -/
theorem C9_invalid_format {r c : Nat} (op : Op r c) (f : String)
    (hf : f ∉ recognizedFormats) :
    to_matrix op (some f) = Except.error ToMatrixError.invalidFormat := by
  simp only [recognizedFormats, List.mem_cons, List.not_mem_nil, or_false] at hf
  push_neg at hf
  obtain ⟨h1, h2, h3, h4, h5, h6, h7, h8⟩ := hf
  simp [to_matrix, h1, h2, h3, h4, h5, h6, h7, h8]

theorem C9_invalid_format_witness :
    ("abc" ∉ recognizedFormats)
    ∧ to_matrix (Op.zeroOp 1 1) (some "abc")
        = Except.error ToMatrixError.invalidFormat :=
  ⟨by decide, C9_invalid_format (Op.zeroOp 1 1) "abc" (by decide)⟩

/-! ## Copy-on-write discipline -/

theorem copy_shallow_eq (s : Store) (h : Handle) :
    copy s h none false
      = ({ s with counts := s.counts.set h.rc (countAt s h.rc + 1) },
         ⟨h.array, h.rc, h.len⟩) := by
  simp [copy]

/-- After a mutator runs on a handle into store `s0` whose buffer was
shared: the handle ends with an exclusive counter, a buffer distinct from
`origArray`, and buffer `origArray` (every buffer already present, in
fact) holds exactly what it held before. -/
def exclusiveNoLeak (s0 : Store) (origArray : Nat) (p : Store × Handle) : Prop :=
  countAt p.1 p.2.rc = 1 ∧ p.2.array ≠ origArray
    ∧ bufAt p.1 origArray = bufAt s0 origArray

theorem scal_shared_frame (s : Store) (h : Handle) (a : Alpha)
    (hA : h.array < s.arrays.length) (hR : h.rc < s.counts.length)
    (hc : 1 < countAt s h.rc) :
    countAt (scal s h a).1 (scal s h a).2.rc = 1
    ∧ (scal s h a).2.array = s.arrays.length
    ∧ ∀ j, j < s.arrays.length → bufAt (scal s h a).1 j = bufAt s j := by
  unfold scal
  rw [cow_of_shared s h hc]
  simp only [NUMPY_INDEX_QUIRK, Bool.false_eq_true, false_and, if_false,
    deep_copy_handle]
  refine ⟨?_, trivial, ?_⟩
  · rw [countAt_setArr]
    exact deep_copy_count_new s h
  · intro j hj
    rw [bufAt_setArr_ne _ _ _ _ (Nat.ne_of_lt hj)]
    exact deep_copy_buf_old s h j hj

theorem axpy_shared_frame (s : Store) (h : Handle) (alpha : Alpha)
    (x : Handle) (ind : Ind)
    (hA : h.array < s.arrays.length) (hR : h.rc < s.counts.length)
    (hc : 1 < countAt s h.rc) :
    countAt (axpy s h alpha x ind).1 (axpy s h alpha x ind).2.rc = 1
    ∧ (axpy s h alpha x ind).2.array = s.arrays.length
    ∧ ∀ j, j < s.arrays.length → bufAt (axpy s h alpha x ind).1 j = bufAt s j := by
  unfold axpy
  rw [cow_of_shared s h hc]
  simp only [deep_copy_handle]
  by_cases hz : alpha.allEq 0 = true
  · simp only [hz, if_true]
    exact ⟨deep_copy_count_new s h, trivial, fun j hj => deep_copy_buf_old s h j hj⟩
  · simp only [hz, Bool.false_eq_true, if_false]
    refine ⟨?_, trivial, ?_⟩
    · rw [countAt_setArr]
      exact deep_copy_count_new s h
    · intro j hj
      rw [bufAt_setArr_ne _ _ _ _ (Nat.ne_of_lt hj)]
      exact deep_copy_buf_old s h j hj

theorem remove_shared_frame (s : Store) (h : Handle) (ind : Option (List Nat))
    (hA : h.array < s.arrays.length) (hR : h.rc < s.counts.length)
    (hc : 1 < countAt s h.rc) :
    countAt (remove s h ind).1 (remove s h ind).2.rc = 1
    ∧ (remove s h ind).2.array = s.arrays.length
    ∧ ∀ j, j < s.arrays.length → bufAt (remove s h ind).1 j = bufAt s j := by
  rcases ind with _ | l
  · unfold remove
    rw [cow_of_shared s h hc]
    simp only [deep_copy_handle]
    refine ⟨?_, ?_, ?_⟩
    · rw [countAt_setArr]
      exact deep_copy_count_new s h
    · trivial
    · intro j hj
      rw [bufAt_setArr_ne _ _ _ _ (Nat.ne_of_lt hj)]
      exact deep_copy_buf_old s h j hj
  · unfold remove
    rw [cow_of_shared s h hc]
    simp only [deep_copy_handle]
    by_cases hl : l.length = 0
    · rw [if_pos hl]
      exact ⟨deep_copy_count_new s h, rfl, fun j hj => deep_copy_buf_old s h j hj⟩
    · rw [if_neg hl]
      refine ⟨?_, ?_, ?_⟩
      · rw [countAt_setArr]
        exact deep_copy_count_new s h
      · trivial
      · intro j hj
        rw [bufAt_setArr_ne _ _ _ _ (Nat.ne_of_lt hj)]
        exact deep_copy_buf_old s h j hj

theorem append_shared_frame (s : Store) (h other : Handle)
    (hA : h.array < s.arrays.length) (hR : h.rc < s.counts.length)
    (hc : 1 < countAt s h.rc) :
    countAt (append s h other false).1 (append s h other false).2.1.rc = 1
    ∧ (append s h other false).2.1.array = s.arrays.length
    ∧ ∀ j, j < s.arrays.length →
        bufAt (append s h other false).1 j = bufAt s j := by
  unfold append
  rw [cow_of_shared s h hc]
  simp only [deep_copy_handle, Bool.false_eq_true, false_and, if_false]
  split
  · refine ⟨?_, trivial, ?_⟩
    · rw [countAt_setArr]
      exact deep_copy_count_new s h
    · intro j hj
      rw [bufAt_setArr_ne _ _ _ _ (Nat.ne_of_lt hj)]
      exact deep_copy_buf_old s h j hj
  · refine ⟨?_, trivial, ?_⟩
    · rw [countAt_setArr]
      exact deep_copy_count_new s h
    · intro j hj
      rw [bufAt_setArr_ne _ _ _ _ (Nat.ne_of_lt hj)]
      exact deep_copy_buf_old s h j hj

/-- C1: `copy(deep=False)` with everything selected aliases the buffer and
increments the shared refcount; afterwards every in-place mutator (`scal`,
`axpy`, `append`, `remove`) applied through the new handle first splits
off a deep copy, ending with an exclusive fresh buffer of refcount 1, and
never changes the contents the original handle sees. -/
theorem C1_copy_on_write (s : Store) (h : Handle)
    (hA : h.array < s.arrays.length) (hR : h.rc < s.counts.length)
    (hc1 : 1 ≤ countAt s h.rc) :
    ∀ s1 h2, copy s h none false = (s1, h2) →
      h2.array = h.array ∧ h2.rc = h.rc ∧ h2.len = h.len
      ∧ countAt s1 h.rc = countAt s h.rc + 1
      ∧ (∀ a : Alpha, exclusiveNoLeak s h.array (scal s1 h2 a))
      ∧ (∀ alpha x ind, exclusiveNoLeak s h.array (axpy s1 h2 alpha x ind))
      ∧ (∀ other : Handle, exclusiveNoLeak s h.array
          ((append s1 h2 other false).1, (append s1 h2 other false).2.1))
      ∧ (∀ ind, exclusiveNoLeak s h.array (remove s1 h2 ind)) := by
  intro s1 h2 heq
  rw [copy_shallow_eq] at heq
  obtain ⟨hs1, hh2⟩ := Prod.mk.injEq _ _ _ _ ▸ heq
  subst hs1
  subst hh2
  have harr : ({ s with counts := s.counts.set h.rc (countAt s h.rc + 1) } : Store).arrays
      = s.arrays := rfl
  have hbuf : ∀ j, bufAt { s with counts := s.counts.set h.rc (countAt s h.rc + 1) } j
      = bufAt s j := fun j => rfl
  have hcnt : countAt { s with counts := s.counts.set h.rc (countAt s h.rc + 1) } h.rc
      = countAt s h.rc + 1 := by
    simp only [countAt]
    exact getD_set_self _ _ _ _ hR
  have hA' : (⟨h.array, h.rc, h.len⟩ : Handle).array
      < ({ s with counts := s.counts.set h.rc (countAt s h.rc + 1) } : Store).arrays.length :=
    hA
  have hR' : (⟨h.array, h.rc, h.len⟩ : Handle).rc
      < ({ s with counts := s.counts.set h.rc (countAt s h.rc + 1) } : Store).counts.length := by
    simpa [List.length_set] using hR
  have hc' : 1 < countAt { s with counts := s.counts.set h.rc (countAt s h.rc + 1) }
      (⟨h.array, h.rc, h.len⟩ : Handle).rc := by
    simpa [hcnt] using Nat.lt_succ_of_le hc1
  refine ⟨rfl, rfl, rfl, hcnt, ?_, ?_, ?_, ?_⟩
  · intro a
    obtain ⟨c1, c2, c3⟩ := scal_shared_frame _ _ a hA' hR' hc'
    exact ⟨c1, by rw [c2, harr]; exact Nat.ne_of_gt hA, by rw [c3 _ hA, hbuf]⟩
  · intro alpha x ind
    obtain ⟨c1, c2, c3⟩ := axpy_shared_frame _ _ alpha x ind hA' hR' hc'
    exact ⟨c1, by rw [c2, harr]; exact Nat.ne_of_gt hA, by rw [c3 _ hA, hbuf]⟩
  · intro other
    obtain ⟨c1, c2, c3⟩ := append_shared_frame _ _ other hA' hR' hc'
    exact ⟨c1, by rw [c2, harr]; exact Nat.ne_of_gt hA, by rw [c3 _ hA, hbuf]⟩
  · intro ind
    obtain ⟨c1, c2, c3⟩ := remove_shared_frame _ _ ind hA' hR' hc'
    exact ⟨c1, by rw [c2, harr]; exact Nat.ne_of_gt hA, by rw [c3 _ hA, hbuf]⟩

/-- C10: on the uniformly-zero fast path of `axpy`, a shared buffer is
still split before the early return: afterwards the handle holds a fresh
exclusive buffer (refcount 1), the former sharers' counter is
decremented, and the logical contents are unchanged. -/
theorem C10_axpy_zero_splits (s : Store) (h x : Handle) (alpha : Alpha)
    (ind : Ind) (hA : h.array < s.arrays.length) (hR : h.rc < s.counts.length)
    (hc : 1 < countAt s h.rc) (hz : alpha.allEq 0 = true) :
    countAt (axpy s h alpha x ind).1 (axpy s h alpha x ind).2.rc = 1
    ∧ (axpy s h alpha x ind).2.array ≠ h.array
    ∧ (axpy s h alpha x ind).2.rc ≠ h.rc
    ∧ countAt (axpy s h alpha x ind).1 h.rc = countAt s h.rc - 1
    ∧ logicalRows (axpy s h alpha x ind).1 (axpy s h alpha x ind).2
        = logicalRows s h := by
  have heq : axpy s h alpha x ind = deep_copy s h := by
    unfold axpy
    rw [cow_of_shared s h hc]
    simp only [hz, if_true]
  rw [heq, deep_copy_handle]
  refine ⟨deep_copy_count_new s h, Nat.ne_of_gt hA, Nat.ne_of_gt hR,
    deep_copy_count_self s h hR, ?_⟩
  show (bufAt (deep_copy s h).1 s.arrays.length).rows.take h.len = _
  rw [deep_copy_buf_new s h]
  rfl

theorem C10_axpy_zero_splits_witness :
    (1 < countAt ⟨[⟨1, [[2]]⟩], [2]⟩ (0 : Nat)
      ∧ (Alpha.scalar 0).allEq 0 = true)
    ∧ countAt (axpy ⟨[⟨1, [[2]]⟩], [2]⟩ ⟨0, 0, 1⟩ (Alpha.scalar 0) ⟨0, 0, 1⟩ Ind.all).1
        (axpy ⟨[⟨1, [[2]]⟩], [2]⟩ ⟨0, 0, 1⟩ (Alpha.scalar 0) ⟨0, 0, 1⟩ Ind.all).2.rc = 1
    ∧ logicalRows (axpy ⟨[⟨1, [[2]]⟩], [2]⟩ ⟨0, 0, 1⟩ (Alpha.scalar 0) ⟨0, 0, 1⟩ Ind.all).1
        (axpy ⟨[⟨1, [[2]]⟩], [2]⟩ ⟨0, 0, 1⟩ (Alpha.scalar 0) ⟨0, 0, 1⟩ Ind.all).2
      = logicalRows ⟨[⟨1, [[2]]⟩], [2]⟩ ⟨0, 0, 1⟩ := by
  have r := C10_axpy_zero_splits ⟨[⟨1, [[2]]⟩], [2]⟩ ⟨0, 0, 1⟩ ⟨0, 0, 1⟩
    (Alpha.scalar 0) Ind.all (by decide) (by decide) (by decide) (by decide)
  exact ⟨⟨by decide, by decide⟩, r.1, r.2.2.2.2⟩

theorem C1_copy_on_write_witness :
    ((0 : Nat) < 1 ∧ 1 ≤ countAt ⟨[⟨1, [[2]]⟩], [1]⟩ (0 : Nat))
    ∧ exclusiveNoLeak ⟨[⟨1, [[2]]⟩], [1]⟩ 0
        (scal (copy ⟨[⟨1, [[2]]⟩], [1]⟩ ⟨0, 0, 1⟩ none false).1
          (copy ⟨[⟨1, [[2]]⟩], [1]⟩ ⟨0, 0, 1⟩ none false).2 (Alpha.scalar 3))
    ∧ exclusiveNoLeak ⟨[⟨1, [[2]]⟩], [1]⟩ 0
        (remove (copy ⟨[⟨1, [[2]]⟩], [1]⟩ ⟨0, 0, 1⟩ none false).1
          (copy ⟨[⟨1, [[2]]⟩], [1]⟩ ⟨0, 0, 1⟩ none false).2 none) := by
  have r := C1_copy_on_write ⟨[⟨1, [[2]]⟩], [1]⟩ ⟨0, 0, 1⟩
    (by decide) (by decide) (by decide)
    (copy ⟨[⟨1, [[2]]⟩], [1]⟩ ⟨0, 0, 1⟩ none false).1
    (copy ⟨[⟨1, [[2]]⟩], [1]⟩ ⟨0, 0, 1⟩ none false).2 rfl
  exact ⟨⟨by decide, by decide⟩, r.2.2.2.2.1 (Alpha.scalar 3), r.2.2.2.2.2.2.2 none⟩

/-! ## amax -/

theorem argmaxAux_le (t : List ℚ) (i bi : Nat) (bv : ℚ) :
    bv ≤ (argmaxAux t i bi bv).2
    ∧ ∀ j, j < t.length → |t.getD j 0| ≤ (argmaxAux t i bi bv).2 := by
  induction t generalizing i bi bv with
  | nil =>
    exact ⟨le_refl _, fun j hj => absurd hj (by simp)⟩
  | cons a t ih =>
    by_cases hlt : bv < |a|
    · simp only [argmaxAux]
      rw [if_pos hlt]
      obtain ⟨h1, h2⟩ := ih (i + 1) i |a|
      refine ⟨le_of_lt (lt_of_lt_of_le hlt h1), ?_⟩
      intro j hj
      cases j with
      | zero => simpa using h1
      | succ j => exact h2 j (by simpa using hj)
    · simp only [argmaxAux]
      rw [if_neg hlt]
      obtain ⟨h1, h2⟩ := ih (i + 1) bi bv
      refine ⟨h1, ?_⟩
      intro j hj
      cases j with
      | zero => simpa using le_trans (not_lt.1 hlt) h1
      | succ j => exact h2 j (by simpa using hj)

theorem argmaxAux_attained (t : List ℚ) (i bi : Nat) (bv : ℚ) :
    ((argmaxAux t i bi bv).1 = bi ∧ (argmaxAux t i bi bv).2 = bv)
    ∨ ∃ j, j < t.length ∧ (argmaxAux t i bi bv).1 = i + j
        ∧ (argmaxAux t i bi bv).2 = |t.getD j 0| := by
  induction t generalizing i bi bv with
  | nil => exact Or.inl ⟨rfl, rfl⟩
  | cons a t ih =>
    by_cases hlt : bv < |a|
    · simp only [argmaxAux]
      rw [if_pos hlt]
      rcases ih (i + 1) i |a| with ⟨h1, h2⟩ | ⟨j, hj, h1, h2⟩
      · refine Or.inr ⟨0, Nat.succ_pos _, ?_, ?_⟩
        · rw [h1]; omega
        · simpa using h2
      · refine Or.inr ⟨j + 1, by simpa using hj, ?_, ?_⟩
        · rw [h1]; omega
        · simpa using h2
    · simp only [argmaxAux]
      rw [if_neg hlt]
      rcases ih (i + 1) bi bv with ⟨h1, h2⟩ | ⟨j, hj, h1, h2⟩
      · exact Or.inl ⟨h1, h2⟩
      · refine Or.inr ⟨j + 1, by simpa using hj, ?_, ?_⟩
        · rw [h1]; omega
        · simpa using h2

theorem argmaxAbs_spec (r : List ℚ) (hr : r ≠ []) :
    (argmaxAbs r).1 < r.length
    ∧ (argmaxAbs r).2 = |r.getD (argmaxAbs r).1 0|
    ∧ ∀ j, j < r.length → |r.getD j 0| ≤ (argmaxAbs r).2 := by
  match r with
  | [] => exact absurd rfl hr
  | a :: t =>
    simp only [argmaxAbs]
    have hle := argmaxAux_le t 1 0 |a|
    have hbound : ∀ j, j < (a :: t).length → |(a :: t).getD j 0| ≤ (argmaxAux t 1 0 |a|).2 := by
      intro j hj
      cases j with
      | zero => simpa using hle.1
      | succ j => simpa using hle.2 j (by simpa using hj)
    rcases argmaxAux_attained t 1 0 |a| with ⟨h1, h2⟩ | ⟨j, hj, h1, h2⟩
    · refine ⟨by rw [h1]; simp, ?_, hbound⟩
      rw [h1, h2]
      simp
    · refine ⟨by rw [h1]; simp; omega, ?_, hbound⟩
      rw [h1, h2, Nat.add_comm 1 j]
      simp

/-- C4 (amended): for width > 0 `amax` returns, per logical row, an index
of a largest-magnitude entry together with that magnitude; for width 0 the
`assert self.dim > 0` fails (modelled as `none`) — the sentinel branch of
the source is unreachable, so no sentinel is ever returned. -/
theorem C4_amax_spec (s : Store) (h : Handle)
    (hrect : ∀ r ∈ (bufAt s h.array).rows, r.length = (bufAt s h.array).width)
    (hlen : h.len ≤ (bufAt s h.array).rows.length) :
    (0 < (bufAt s h.array).width →
      ∃ idxs mags, amax s h = some (idxs, mags)
        ∧ idxs.length = h.len ∧ mags.length = h.len
        ∧ ∀ i, i < h.len →
            ∃ k : Nat, k < (bufAt s h.array).width
              ∧ idxs.getD i 0 = (k : ℤ)
              ∧ mags.getD i 0 = |((logicalRows s h).getD i []).getD k 0|
              ∧ ∀ j, j < (bufAt s h.array).width →
                  |((logicalRows s h).getD i []).getD j 0| ≤ mags.getD i 0)
    ∧ ((bufAt s h.array).width = 0 → amax s h = none) := by
  constructor
  · intro hw
    have hw' : ¬ (bufAt s h.array).width = 0 := Nat.pos_iff_ne_zero.1 hw
    refine ⟨((bufAt s h.array).rows.take h.len).map (fun r => ((argmaxAbs r).1 : ℤ)),
      ((bufAt s h.array).rows.take h.len).map (fun r => (argmaxAbs r).2),
      ?_, ?_, ?_, ?_⟩
    · simp only [amax]
      rw [if_neg hw', if_neg hw']
    · simp [List.length_take, Nat.min_eq_left hlen]
    · simp [List.length_take, Nat.min_eq_left hlen]
    · intro i hi
      have hA : ((bufAt s h.array).rows.take h.len).length = h.len := by
        simp [List.length_take, hlen]
      have hiA : i < ((bufAt s h.array).rows.take h.len).length := by rw [hA]; exact hi
      set row := ((bufAt s h.array).rows.take h.len).getD i [] with hrow
      have hmem : row ∈ (bufAt s h.array).rows := by
        apply List.take_subset h.len
        rw [hrow, List.getD_eq_getElem _ _ hiA]
        exact List.getElem_mem _
      have hrlen : row.length = (bufAt s h.array).width := hrect row hmem
      have hne : row ≠ [] := by
        intro hnil
        rw [hnil] at hrlen
        exact hw' hrlen.symm
      obtain ⟨hk1, hk2, hk3⟩ := argmaxAbs_spec row hne
      refine ⟨(argmaxAbs row).1, by rw [← hrlen]; exact hk1, ?_, ?_, ?_⟩
      · show (((bufAt s h.array).rows.take h.len).map
            (fun r => ((argmaxAbs r).1 : ℤ))).getD i 0 = _
        have : ((0 : ℤ)) = (fun r => ((argmaxAbs r).1 : ℤ)) [] := by simp [argmaxAbs]
        rw [this, List.getD_map _ _ (fun r => ((argmaxAbs r).1 : ℤ))]
      · show (((bufAt s h.array).rows.take h.len).map
            (fun r => (argmaxAbs r).2)).getD i 0 = _
        have : ((0 : ℚ)) = (fun r => (argmaxAbs r).2) [] := by simp [argmaxAbs]
        rw [this, List.getD_map _ _ (fun r => (argmaxAbs r).2)]
        exact hk2
      · intro j hj
        show |((logicalRows s h).getD i []).getD j 0|
            ≤ (((bufAt s h.array).rows.take h.len).map
                (fun r => (argmaxAbs r).2)).getD i 0
        have : ((0 : ℚ)) = (fun r => (argmaxAbs r).2) [] := by simp [argmaxAbs]
        rw [this, List.getD_map _ _ (fun r => (argmaxAbs r).2)]
        exact hk3 j (by rw [hrlen]; exact hj)
  · intro hw
    unfold amax
    rw [if_pos hw]

/-- C4 counterexample: on a zero-width array of length 2 `amax` fails the
`dim > 0` assertion (modelled `none`); it does not return the claimed
sentinel `(-1, 0)` rows. -/
theorem C4_amax_counterexample :
    amax (⟨[⟨0, [[], []]⟩], [1]⟩ : Store) (⟨0, 0, 2⟩ : Handle) = none
    ∧ amax (⟨[⟨0, [[], []]⟩], [1]⟩ : Store) (⟨0, 0, 2⟩ : Handle)
        ≠ some (List.replicate 2 (-1), List.replicate 2 0) := by
  exact ⟨rfl, by decide⟩

theorem C4_amax_spec_witness :
    ((∀ r ∈ (bufAt (⟨[⟨2, [[1, -3], [2, 0]]⟩], [1]⟩ : Store) 0).rows,
        r.length = (bufAt (⟨[⟨2, [[1, -3], [2, 0]]⟩], [1]⟩ : Store) 0).width)
      ∧ (2 : Nat) ≤ (bufAt (⟨[⟨2, [[1, -3], [2, 0]]⟩], [1]⟩ : Store) 0).rows.length
      ∧ 0 < (bufAt (⟨[⟨2, [[1, -3], [2, 0]]⟩], [1]⟩ : Store) 0).width)
    ∧ ∃ idxs mags,
        amax (⟨[⟨2, [[1, -3], [2, 0]]⟩], [1]⟩ : Store) (⟨0, 0, 2⟩ : Handle)
          = some (idxs, mags)
        ∧ idxs.length = 2 ∧ mags.length = 2
        ∧ ∀ i, i < 2 →
            ∃ k : Nat, k < 2
              ∧ idxs.getD i 0 = (k : ℤ)
              ∧ mags.getD i 0
                = |((logicalRows (⟨[⟨2, [[1, -3], [2, 0]]⟩], [1]⟩ : Store)
                      (⟨0, 0, 2⟩ : Handle)).getD i []).getD k 0|
              ∧ ∀ j, j < 2 →
                  |((logicalRows (⟨[⟨2, [[1, -3], [2, 0]]⟩], [1]⟩ : Store)
                      (⟨0, 0, 2⟩ : Handle)).getD i []).getD j 0|
                    ≤ mags.getD i 0 := by
  refine ⟨⟨by decide, by decide, by decide⟩, ?_⟩
  exact (C4_amax_spec (⟨[⟨2, [[1, -3], [2, 0]]⟩], [1]⟩ : Store) (⟨0, 0, 2⟩ : Handle)
    (by decide) (by decide)).1 (by decide)

/-! ## remove -/

theorem getD_cons_sub {α : Type} (a : α) (t : List α) (d : α) (n i : Nat)
    (hi : n + 1 ≤ i) : (a :: t).getD (i - n) d = t.getD (i - (n + 1)) d := by
  have heq : i - n = (i - (n + 1)) + 1 := by omega
  rw [heq, List.getD_cons_succ]

theorem filter_range'_map_getD {α : Type} (L : List α) (d : α) :
    ∀ (n : Nat) (p : Nat → Bool),
    ((List.range' n L.length).filter p).map (fun i => L.getD (i - n) d)
      = ((L.enumFrom n).filter (fun q => p q.1)).map Prod.snd := by
  induction L with
  | nil => intro n p; rfl
  | cons a t ih =>
    intro n p
    have hmap : ((List.range' (n + 1) t.length).filter p).map
          (fun i => (a :: t).getD (i - n) d)
        = ((List.range' (n + 1) t.length).filter p).map
          (fun i => t.getD (i - (n + 1)) d) := by
      apply List.map_congr_left
      intro i hi
      have hmem := (List.mem_filter.1 hi).1
      rw [List.mem_range'] at hmem
      obtain ⟨k, hk, rfl⟩ := hmem
      exact getD_cons_sub a t d n _ (by omega)
    show ((List.range' n (t.length + 1)).filter p).map (fun i => (a :: t).getD (i - n) d)
        = (((n, a) :: t.enumFrom (n + 1)).filter (fun q => p q.1)).map Prod.snd
    rw [List.range'_succ, List.filter_cons, List.filter_cons]
    by_cases hp : p n = true
    · rw [if_pos hp, if_pos hp, List.map_cons, List.map_cons]
      congr 1
      · show (a :: t).getD (n - n) d = a
        rw [Nat.sub_self, List.getD_cons_zero]
      · rw [hmap]
        exact ih (n + 1) p
    · rw [if_neg hp, if_neg hp, hmap]
      exact ih (n + 1) p

theorem filter_range_map_getD {α : Type} (L : List α) (d : α) (p : Nat → Bool) :
    ((List.range L.length).filter p).map (fun i => L.getD i d)
      = ((L.enum.filter (fun q => p q.1)).map Prod.snd) := by
  have h := filter_range'_map_getD L d 0 p
  rw [List.range_eq_range']
  simpa using h

theorem length_filter_add_length_filter_not {α : Type} (L : List α) (p : α → Bool) :
    (L.filter p).length + (L.filter (fun a => ! p a)).length = L.length := by
  induction L with
  | nil => rfl
  | cons a t ih =>
    rw [List.filter_cons, List.filter_cons]
    by_cases hp : p a = true
    · rw [if_pos hp, if_neg (by rw [hp]; simp)]
      simp only [List.length_cons]
      omega
    · have hpf : p a = false := Bool.eq_false_iff.mpr hp
      rw [if_neg hp, if_pos (by rw [hpf]; rfl)]
      simp only [List.length_cons]
      omega

theorem length_filter_not_mem_range (n : Nat) (l : List Nat) (hnd : l.Nodup)
    (hlt : ∀ i ∈ l, i < n) :
    ((List.range n).filter (fun i => decide (i ∉ l))).length = n - l.length := by
  have hfun : (fun i => decide (i ∉ l)) = (fun i => ! decide (i ∈ l)) := by
    funext i
    simp [decide_not]
  have hsplit := length_filter_add_length_filter_not (List.range n)
    (fun i => decide (i ∈ l))
  rw [List.length_range] at hsplit
  have hnodA : ((List.range n).filter (fun i => decide (i ∈ l))).Nodup :=
    List.Nodup.filter _ (List.nodup_range n)
  have hset : ((List.range n).filter (fun i => decide (i ∈ l))).toFinset
      = l.toFinset := by
    ext x
    simp only [List.mem_toFinset, List.mem_filter, List.mem_range,
      decide_eq_true_eq]
    exact ⟨fun hx => hx.2, fun hx => ⟨hlt x hx, hx⟩⟩
  have hmem : ((List.range n).filter (fun i => decide (i ∈ l))).length = l.length := by
    calc ((List.range n).filter (fun i => decide (i ∈ l))).length
        = ((List.range n).filter (fun i => decide (i ∈ l))).toFinset.card :=
          (List.toFinset_card_of_nodup hnodA).symm
      _ = l.toFinset.card := by rw [hset]
      _ = l.length := List.toFinset_card_of_nodup hnd
  rw [hmem] at hsplit
  rw [hfun]
  omega

theorem getD_take {α : Type} (L : List α) (n i : Nat) (d : α) (hi : i < n) :
    (L.take n).getD i d = L.getD i d := by
  rw [List.getD_eq_getD_get?, List.getD_eq_getD_get?, List.get?_eq_getElem?,
    List.get?_eq_getElem?, List.getElem?_take_of_lt hi]

theorem remove_some_eq (s : Store) (h : Handle) (l : List Nat)
    (hl : ¬ l.length = 0) :
    remove s h (some l)
      = (setArr (cow s h).1 (cow s h).2.array
          ⟨(bufAt (cow s h).1 (cow s h).2.array).width,
           ((List.range (cow s h).2.len).filter (fun i => decide (i ∉ l))).map
             (fun i => (bufAt (cow s h).1 (cow s h).2.array).rows.getD i [])⟩,
         { (cow s h).2 with
             len := ((List.range (cow s h).2.len).filter
               (fun i => decide (i ∉ l))).length }) := by
  simp only [remove]
  rw [if_neg hl]

theorem remove_none_eq (s : Store) (h : Handle) :
    remove s h none
      = (setArr (cow s h).1 (cow s h).2.array
          ⟨(bufAt (cow s h).1 (cow s h).2.array).width, []⟩,
         { (cow s h).2 with len := 0 }) := by
  simp only [remove]

/-- C6: `remove` with a set `I` of distinct in-range indices deletes
exactly the rows indexed by `I`, compacting the remaining rows in their
original relative order; the new length is the old length minus `|I|` and
the width is unchanged; `remove()` with no indices empties the array
(width again unchanged). -/
theorem C6_remove_rows (s : Store) (h : Handle) (l : List Nat)
    (hA : h.array < s.arrays.length)
    (hlen : h.len ≤ (bufAt s h.array).rows.length)
    (hnd : l.Nodup) (hin : ∀ i ∈ l, i < h.len) :
    ((remove s h (some l)).2.len = h.len - l.length
      ∧ (bufAt (remove s h (some l)).1 (remove s h (some l)).2.array).width
          = (bufAt s h.array).width
      ∧ logicalRows (remove s h (some l)).1 (remove s h (some l)).2
          = ((logicalRows s h).enum.filter (fun q => decide (q.1 ∉ l))).map Prod.snd)
    ∧ ((remove s h none).2.len = 0
      ∧ logicalRows (remove s h none).1 (remove s h none).2 = []
      ∧ (bufAt (remove s h none).1 (remove s h none).2.array).width
          = (bufAt s h.array).width) := by
  have hclen := cow_len s h
  have hcbuf := cow_buf_self s h
  have hctgt := cow_target_lt s h hA
  have hLlen : (logicalRows s h).length = h.len := by
    rw [logicalRows, List.length_take]
    exact Nat.min_eq_left hlen
  constructor
  · by_cases hl : l.length = 0
    · have hlnil : l = [] := List.length_eq_zero.1 hl
      subst hlnil
      have heq : remove s h (some []) = ((cow s h).1, (cow s h).2) := by
        simp only [remove]
        rw [if_pos hl]
      rw [heq]
      refine ⟨by rw [hclen]; omega, by rw [hcbuf], ?_⟩
      show (bufAt (cow s h).1 (cow s h).2.array).rows.take (cow s h).2.len = _
      rw [hcbuf, hclen]
      show logicalRows s h = _
      simp [List.enum_map_snd]
    · rw [remove_some_eq s h l hl]
      have hfl : ((List.range (cow s h).2.len).filter
          (fun i => decide (i ∉ l))).length = h.len - l.length := by
        rw [hclen]
        exact length_filter_not_mem_range h.len l hnd hin
      refine ⟨hfl, ?_, ?_⟩
      · rw [bufAt_setArr_self _ _ _ hctgt, hcbuf]
      · show (bufAt (setArr (cow s h).1 (cow s h).2.array _) (cow s h).2.array).rows.take _
            = _
        rw [bufAt_setArr_self _ _ _ hctgt]
        show (((List.range (cow s h).2.len).filter (fun i => decide (i ∉ l))).map
            (fun i => (bufAt (cow s h).1 (cow s h).2.array).rows.getD i [])).take _ = _
        rw [List.take_of_length_le (by rw [List.length_map])]
        rw [hcbuf, hclen]
        calc ((List.range h.len).filter (fun i => decide (i ∉ l))).map
              (fun i => (bufAt s h.array).rows.getD i [])
            = ((List.range h.len).filter (fun i => decide (i ∉ l))).map
              (fun i => (logicalRows s h).getD i []) := by
              apply List.map_congr_left
              intro i hi
              have hir : i < h.len := by
                have hm := (List.mem_filter.1 hi).1
                rw [List.mem_range] at hm
                exact hm
              exact (getD_take _ _ _ _ hir).symm
          _ = ((logicalRows s h).enum.filter (fun q => decide (q.1 ∉ l))).map
                Prod.snd := by
              have heq := filter_range_map_getD (logicalRows s h) []
                (fun i => decide (i ∉ l))
              rw [hLlen] at heq
              exact heq
  · rw [remove_none_eq s h]
    refine ⟨rfl, ?_, ?_⟩
    · show (bufAt _ _).rows.take 0 = _
      rw [List.take_zero]
    · rw [bufAt_setArr_self _ _ _ hctgt, hcbuf]

theorem C6_remove_rows_witness :
    (([1] : List Nat).Nodup ∧ ∀ i ∈ ([1] : List Nat), i < 3)
    ∧ (remove (⟨[⟨1, [[1], [2], [3]]⟩], [1]⟩ : Store) (⟨0, 0, 3⟩ : Handle)
        (some [1])).2.len = 3 - 1
    ∧ logicalRows
        (remove (⟨[⟨1, [[1], [2], [3]]⟩], [1]⟩ : Store) (⟨0, 0, 3⟩ : Handle)
          (some [1])).1
        (remove (⟨[⟨1, [[1], [2], [3]]⟩], [1]⟩ : Store) (⟨0, 0, 3⟩ : Handle)
          (some [1])).2
      = ((logicalRows (⟨[⟨1, [[1], [2], [3]]⟩], [1]⟩ : Store)
          (⟨0, 0, 3⟩ : Handle)).enum.filter
            (fun q => decide (q.1 ∉ ([1] : List Nat)))).map Prod.snd := by
  have r := C6_remove_rows (⟨[⟨1, [[1], [2], [3]]⟩], [1]⟩ : Store)
    (⟨0, 0, 3⟩ : Handle) [1] (by decide) (by decide) (by decide) (by decide)
  exact ⟨⟨by decide, by decide⟩, r.1.1, r.1.2.2⟩

/-! ## append -/

theorem cow_array_cases (s : Store) (h : Handle) :
    (cow s h).2.array = h.array ∨ (cow s h).2.array = s.arrays.length := by
  by_cases hc : 1 < countAt s h.rc
  · rw [cow_of_shared s h hc, deep_copy_handle]
    exact Or.inr rfl
  · rw [cow_of_not_shared s h hc]
    exact Or.inl rfl

theorem take_len_append_append {α : Type} (A W D : List α) (l o : Nat)
    (hA : A.length = l) (hW : W.length = o) :
    (A ++ W ++ D).take (l + o) = A ++ W := by
  rw [List.append_assoc, List.take_append_eq_append_take,
    List.take_of_length_le (by omega), hA, Nat.add_sub_cancel_left,
    List.take_append_eq_append_take, List.take_of_length_le (by omega), hW,
    Nat.sub_self, List.take_zero, List.append_nil]

theorem take_len_append {α : Type} (A W : List α) (l o : Nat)
    (hA : A.length = l) (hW : W.length = o) :
    (A ++ W).take (l + o) = A ++ W :=
  List.take_of_length_le (by rw [List.length_append]; omega)

/-- The buffer-filling step of `append` (the body between the two
copy-on-write prologues and the optional trailing `other.remove()`),
stated over an arbitrary post-prologue store `s2`: the first
`h1.len + o1.len` rows of the target buffer become the logical rows of
the target followed by the logical rows of the operand, and every other
buffer and all counters are untouched. -/
theorem append_core (s2 : Store) (h1 o1 : Handle)
    (hT : h1.array < s2.arrays.length)
    (hO : o1.array ≠ h1.array)
    (hl1 : h1.len ≤ (bufAt s2 h1.array).rows.length)
    (hl2 : o1.len ≤ (bufAt s2 o1.array).rows.length) :
    ∀ s3, s3 = (if (o1.len : ℤ) ≤ ((bufAt s2 h1.array).rows.length : ℤ)
          - (h1.len : ℤ) then
        setArr s2 h1.array
          ⟨(bufAt s2 h1.array).width,
           (bufAt s2 h1.array).rows.take h1.len
             ++ (bufAt s2 o1.array).rows.take o1.len
             ++ (bufAt s2 h1.array).rows.drop (h1.len + o1.len)⟩
      else
        setArr s2 h1.array
          ⟨(bufAt s2 h1.array).width,
           (bufAt s2 h1.array).rows.take h1.len
             ++ (bufAt s2 o1.array).rows.take o1.len⟩) →
      (bufAt s3 h1.array).rows.take (h1.len + o1.len)
          = (bufAt s2 h1.array).rows.take h1.len
            ++ (bufAt s2 o1.array).rows.take o1.len
      ∧ (∀ j, j ≠ h1.array → bufAt s3 j = bufAt s2 j)
      ∧ s3.arrays.length = s2.arrays.length := by
  intro s3 hs3
  have hlA : ((bufAt s2 h1.array).rows.take h1.len).length = h1.len := by
    rw [List.length_take]
    exact Nat.min_eq_left hl1
  have hlW : ((bufAt s2 o1.array).rows.take o1.len).length = o1.len := by
    rw [List.length_take]
    exact Nat.min_eq_left hl2
  subst hs3
  split
  · refine ⟨?_, ?_, ?_⟩
    · rw [bufAt_setArr_self _ _ _ hT]
      exact take_len_append_append _ _ _ _ _ hlA hlW
    · intro j hj
      exact bufAt_setArr_ne _ _ _ _ hj
    · exact setArr_arrays_length _ _ _
  · refine ⟨?_, ?_, ?_⟩
    · rw [bufAt_setArr_self _ _ _ hT]
      exact take_len_append _ _ _ _ hlA hlW
    · intro j hj
      exact bufAt_setArr_ne _ _ _ _ hj
    · exact setArr_arrays_length _ _ _

/-- Facts about the conditional deep copy of `other` that `append` runs
when `remove_from_other` is set. -/
theorem q_step_facts (s1 : Store) (w : Handle) (cond : Prop) [Decidable cond] :
    ((if cond then deep_copy s1 w else (s1, w)).2.len = w.len)
    ∧ (bufAt (if cond then deep_copy s1 w else (s1, w)).1
        (if cond then deep_copy s1 w else (s1, w)).2.array = bufAt s1 w.array)
    ∧ (∀ j, j < s1.arrays.length →
        bufAt (if cond then deep_copy s1 w else (s1, w)).1 j = bufAt s1 j)
    ∧ s1.arrays.length ≤ (if cond then deep_copy s1 w else (s1, w)).1.arrays.length
    ∧ (∀ t, t < s1.arrays.length → w.array ≠ t →
        (if cond then deep_copy s1 w else (s1, w)).2.array ≠ t) := by
  by_cases hc : cond
  · rw [if_pos hc]
    refine ⟨?_, ?_, ?_, ?_, ?_⟩
    · rw [deep_copy_handle]
    · rw [deep_copy_handle]
      exact deep_copy_buf_new s1 w
    · exact deep_copy_buf_old s1 w
    · rw [deep_copy_arrays_length]
      exact Nat.le_succ _
    · intro t ht _
      rw [deep_copy_handle]
      exact Nat.ne_of_gt ht
  · rw [if_neg hc]
    exact ⟨rfl, rfl, fun j _ => rfl, Nat.le_refl _, fun t _ hw => hw⟩

/-- The trailing `other.remove()` of `append` empties the operand and does
not touch the (distinct) target buffer. -/
theorem append_tail_facts (s3 : Store) (o1 h1 : Handle)
    (hT3 : h1.array < s3.arrays.length)
    (hO3 : o1.array ≠ h1.array) :
    bufAt (remove s3 o1 none).1 h1.array = bufAt s3 h1.array
    ∧ (remove s3 o1 none).2.len = 0 := by
  rw [remove_none_eq]
  constructor
  · have hne3 : (cow s3 o1).2.array ≠ h1.array := by
      rcases cow_array_cases s3 o1 with hx | hx
      · rw [hx]; exact hO3
      · rw [hx]; exact Nat.ne_of_gt hT3
    rw [bufAt_setArr_ne _ _ _ _ (Ne.symm hne3)]
    exact cow_buf_frame s3 o1 h1.array hT3
  · rfl

/-- C5: for arrays of equal width (distinct buffers), `append` makes the
target's logical rows its old rows followed by the operand's rows, and its
length the sum of the lengths; with `remove_from_other` the operand is
emptied afterwards, otherwise the operand handle and its contents are
untouched. -/
theorem C5_append_rows (s : Store) (h w : Handle) (rfo : Bool)
    (hA : h.array < s.arrays.length) (hwA : w.array < s.arrays.length)
    (hne : w.array ≠ h.array)
    (hlen : h.len ≤ (bufAt s h.array).rows.length)
    (hwlen : w.len ≤ (bufAt s w.array).rows.length)
    (hdim : (bufAt s h.array).width = (bufAt s w.array).width) :
    (append s h w rfo).2.1.len = h.len + w.len
    ∧ logicalRows (append s h w rfo).1 (append s h w rfo).2.1
        = logicalRows s h ++ logicalRows s w
    ∧ (rfo = true → (append s h w rfo).2.2.len = 0)
    ∧ (rfo = false → (append s h w rfo).2.2 = w
        ∧ logicalRows (append s h w rfo).1 (append s h w rfo).2.2
            = logicalRows s w) := by
  have hclen := cow_len s h
  have hcbuf := cow_buf_self s h
  have hctgt := cow_target_lt s h hA
  have hwbuf : bufAt (cow s h).1 w.array = bufAt s w.array :=
    cow_buf_frame s h w.array hwA
  have hne1 : w.array ≠ (cow s h).2.array := by
    rcases cow_array_cases s h with hx | hx
    · rw [hx]; exact hne
    · rw [hx]; exact Nat.ne_of_lt hwA
  have hl1 : (cow s h).2.len ≤ (bufAt (cow s h).1 (cow s h).2.array).rows.length := by
    rw [hclen, hcbuf]; exact hlen
  have hl2' : w.len ≤ (bufAt (cow s h).1 w.array).rows.length := by
    rw [hwbuf]; exact hwlen
  cases rfo with
  | false =>
    simp only [append, Bool.false_eq_true, false_and, if_false]
    obtain ⟨hrows, hframe, hslen⟩ :=
      append_core (cow s h).1 (cow s h).2 w hctgt hne1 hl1 hl2' _ rfl
    refine ⟨?_, ?_, ?_, ?_⟩
    · show (cow s h).2.len + w.len = h.len + w.len
      rw [hclen]
    · show (bufAt _ (cow s h).2.array).rows.take ((cow s h).2.len + w.len)
          = logicalRows s h ++ logicalRows s w
      rw [hrows, hcbuf, hclen, hwbuf]
      rfl
    · intro hx
      exact hx.elim
    · intro _
      refine ⟨trivial, ?_⟩
      show (bufAt _ w.array).rows.take w.len = logicalRows s w
      rw [hframe w.array hne1, hwbuf]
      rfl
  | true =>
    simp only [append, eq_self_iff_true, true_and, if_true]
    obtain ⟨hq1, hq2, hq3, hq4, hq5⟩ :=
      q_step_facts (cow s h).1 w (1 < countAt (cow s h).1 w.rc)
    obtain ⟨hrows, hframe, hslen⟩ :=
      append_core
        (if 1 < countAt (cow s h).1 w.rc then deep_copy (cow s h).1 w
          else ((cow s h).1, w)).1
        (cow s h).2
        (if 1 < countAt (cow s h).1 w.rc then deep_copy (cow s h).1 w
          else ((cow s h).1, w)).2
        (lt_of_lt_of_le hctgt hq4)
        (hq5 (cow s h).2.array hctgt hne1)
        (by rw [hq3 (cow s h).2.array hctgt, hcbuf, hclen]; exact hlen)
        (by rw [hq1, hq2, hwbuf]; exact hwlen)
        _ rfl
    have hT3 : (cow s h).2.array
        < (if (((if 1 < countAt (cow s h).1 w.rc then deep_copy (cow s h).1 w
              else ((cow s h).1, w)).2.len : ℤ))
            ≤ ((bufAt (if 1 < countAt (cow s h).1 w.rc then deep_copy (cow s h).1 w
                else ((cow s h).1, w)).1 (cow s h).2.array).rows.length : ℤ)
              - ((cow s h).2.len : ℤ) then
          setArr (if 1 < countAt (cow s h).1 w.rc then deep_copy (cow s h).1 w
              else ((cow s h).1, w)).1 (cow s h).2.array
            ⟨(bufAt (if 1 < countAt (cow s h).1 w.rc then deep_copy (cow s h).1 w
                else ((cow s h).1, w)).1 (cow s h).2.array).width,
             (bufAt (if 1 < countAt (cow s h).1 w.rc then deep_copy (cow s h).1 w
                else ((cow s h).1, w)).1 (cow s h).2.array).rows.take (cow s h).2.len
               ++ (bufAt (if 1 < countAt (cow s h).1 w.rc then deep_copy (cow s h).1 w
                  else ((cow s h).1, w)).1
                  (if 1 < countAt (cow s h).1 w.rc then deep_copy (cow s h).1 w
                    else ((cow s h).1, w)).2.array).rows.take
                 (if 1 < countAt (cow s h).1 w.rc then deep_copy (cow s h).1 w
                   else ((cow s h).1, w)).2.len
               ++ (bufAt (if 1 < countAt (cow s h).1 w.rc then deep_copy (cow s h).1 w
                  else ((cow s h).1, w)).1 (cow s h).2.array).rows.drop
                 ((cow s h).2.len
                   + (if 1 < countAt (cow s h).1 w.rc then deep_copy (cow s h).1 w
                      else ((cow s h).1, w)).2.len)⟩
        else
          setArr (if 1 < countAt (cow s h).1 w.rc then deep_copy (cow s h).1 w
              else ((cow s h).1, w)).1 (cow s h).2.array
            ⟨(bufAt (if 1 < countAt (cow s h).1 w.rc then deep_copy (cow s h).1 w
                else ((cow s h).1, w)).1 (cow s h).2.array).width,
             (bufAt (if 1 < countAt (cow s h).1 w.rc then deep_copy (cow s h).1 w
                else ((cow s h).1, w)).1 (cow s h).2.array).rows.take (cow s h).2.len
               ++ (bufAt (if 1 < countAt (cow s h).1 w.rc then deep_copy (cow s h).1 w
                  else ((cow s h).1, w)).1
                  (if 1 < countAt (cow s h).1 w.rc then deep_copy (cow s h).1 w
                    else ((cow s h).1, w)).2.array).rows.take
                 (if 1 < countAt (cow s h).1 w.rc then deep_copy (cow s h).1 w
                   else ((cow s h).1, w)).2.len⟩).arrays.length := by
      rw [hslen]
      exact lt_of_lt_of_le hctgt hq4
    have htail := append_tail_facts _
      (if 1 < countAt (cow s h).1 w.rc then deep_copy (cow s h).1 w
        else ((cow s h).1, w)).2
      (cow s h).2 hT3 (hq5 (cow s h).2.array hctgt hne1)
    refine ⟨?_, ?_, ?_, ?_⟩
    · show (cow s h).2.len
          + (if 1 < countAt (cow s h).1 w.rc then deep_copy (cow s h).1 w
            else ((cow s h).1, w)).2.len = h.len + w.len
      rw [hclen, hq1]
    · simp only [logicalRows]
      rw [htail.1, hrows, hq3 (cow s h).2.array hctgt, hcbuf, hclen, hq1, hq2, hwbuf]
    · intro _
      exact htail.2
    · intro hx
      exact absurd hx (by decide)

theorem C5_append_rows_witness :
    ((⟨1, 1, 1⟩ : Handle).array ≠ (⟨0, 0, 2⟩ : Handle).array
      ∧ (bufAt (⟨[⟨1, [[1], [2]]⟩, ⟨1, [[5]]⟩], [1, 1]⟩ : Store)
          (⟨0, 0, 2⟩ : Handle).array).width
        = (bufAt (⟨[⟨1, [[1], [2]]⟩, ⟨1, [[5]]⟩], [1, 1]⟩ : Store)
          (⟨1, 1, 1⟩ : Handle).array).width)
    ∧ (append (⟨[⟨1, [[1], [2]]⟩, ⟨1, [[5]]⟩], [1, 1]⟩ : Store)
        (⟨0, 0, 2⟩ : Handle) (⟨1, 1, 1⟩ : Handle) false).2.1.len = 2 + 1
    ∧ logicalRows
        (append (⟨[⟨1, [[1], [2]]⟩, ⟨1, [[5]]⟩], [1, 1]⟩ : Store)
          (⟨0, 0, 2⟩ : Handle) (⟨1, 1, 1⟩ : Handle) false).1
        (append (⟨[⟨1, [[1], [2]]⟩, ⟨1, [[5]]⟩], [1, 1]⟩ : Store)
          (⟨0, 0, 2⟩ : Handle) (⟨1, 1, 1⟩ : Handle) false).2.1
      = logicalRows (⟨[⟨1, [[1], [2]]⟩, ⟨1, [[5]]⟩], [1, 1]⟩ : Store)
          (⟨0, 0, 2⟩ : Handle)
        ++ logicalRows (⟨[⟨1, [[1], [2]]⟩, ⟨1, [[5]]⟩], [1, 1]⟩ : Store)
          (⟨1, 1, 1⟩ : Handle) := by
  have r := C5_append_rows (⟨[⟨1, [[1], [2]]⟩, ⟨1, [[5]]⟩], [1, 1]⟩ : Store)
    (⟨0, 0, 2⟩ : Handle) (⟨1, 1, 1⟩ : Handle) false
    (by decide) (by decide) (by decide) (by decide) (by decide) (by decide)
  exact ⟨⟨by decide, by decide⟩, r.1, r.2.1⟩

/-! ## axpy fast paths -/

/-- The length side of the source's
`assert alpha.shape == (self.len_ind(ind),)`: a scalar coefficient always
fits, a vector coefficient has one entry per selected row. -/
def alphaLenOk : Alpha → Nat → Prop
  | .scalar _, _ => True
  | .vec v, n => v.length = n

theorem Alpha.coeff_of_allEq (alpha : Alpha) (c : ℚ) (n : Nat)
    (hall : alpha.allEq c = true) (hlen : alphaLenOk alpha n)
    (p : Nat) (hp : p < n) : alpha.coeff p = c := by
  cases alpha with
  | scalar a =>
    simpa [Alpha.allEq, Alpha.coeff] using hall
  | vec v =>
    have hvl : v.length = n := hlen
    have hmem : v.getD p 0 ∈ v := by
      rw [List.getD_eq_getElem v 0 (by omega)]
      exact List.getElem_mem _
    have := List.all_eq_true.mp hall _ hmem
    simpa [Alpha.coeff] using this

theorem Alpha.allEq_zero_of_one_of_neg_one (alpha : Alpha)
    (h1 : alpha.allEq 1 = true) (hm : alpha.allEq (-1) = true) :
    alpha.allEq 0 = true := by
  cases alpha with
  | scalar a =>
    simp only [Alpha.allEq, decide_eq_true_eq] at h1 hm
    rw [h1] at hm
    norm_num at hm
  | vec v =>
    cases v with
    | nil => rfl
    | cons a t =>
      simp only [Alpha.allEq, List.all_cons, Bool.and_eq_true,
        decide_eq_true_eq] at h1 hm
      rw [h1.1] at hm
      have := hm.1
      norm_num at this

theorem selUpd_congr (rows : List (List ℚ)) (S : List Nat)
    (g1 g2 : Nat → List ℚ → List ℚ)
    (hg : ∀ p row, p < S.length → g1 p row = g2 p row) :
    selUpd rows S g1 = selUpd rows S g2 := by
  unfold selUpd
  apply List.map_congr_left
  intro r _
  cases hf : S.findIdx? (fun j => j == r) with
  | none => rfl
  | some p =>
    exact hg p _ (List.findIdx?_eq_some_iff_findIdx_eq.mp hf).1

/-- C7: the `alpha == 1` and `alpha == -1` fast paths of `axpy` produce
exactly the state the general multiply-and-add branch produces at those
coefficients (for a coefficient vector of the asserted length); and
`axpy` with a uniformly-zero `alpha` leaves the logical contents (and the
length) of the array unchanged. -/
theorem C7_axpy_fast_paths (s : Store) (h x : Handle) (ind : Ind) (alpha : Alpha)
    (hlenok : alphaLenOk alpha (ind.sel h.len).length) :
    ((alpha.allEq 1 = true ∨ alpha.allEq (-1) = true) →
      axpy s h alpha x ind = axpyGeneric s h alpha x ind)
    ∧ (alpha.allEq 0 = true →
        logicalRows (axpy s h alpha x ind).1 (axpy s h alpha x ind).2
            = logicalRows s h
        ∧ (axpy s h alpha x ind).2.len = h.len) := by
  constructor
  · intro hone
    by_cases hz : alpha.allEq 0 = true
    · simp only [axpy, axpyGeneric, hz, eq_self_iff_true, if_true]
    · simp only [axpy, axpyGeneric, NUMPY_INDEX_QUIRK, Bool.false_eq_true,
        false_and, if_false]
      rw [if_neg hz, if_neg hz, cow_len s h]
      rcases hone with h1a | hm1
      · rw [if_pos h1a]
        have hupd := selUpd_congr
          (bufAt (cow s h).1 (cow s h).2.array).rows (ind.sel h.len)
          (fun p row => List.zipWith (fun t b => t + b) row
            (brow ((bufAt (cow s h).1 x.array).rows.take x.len) p))
          (fun p row => List.zipWith (fun t b => t + alpha.coeff p * b) row
            (brow ((bufAt (cow s h).1 x.array).rows.take x.len) p))
          (by
            intro p row hp
            simp only []
            rw [Alpha.coeff_of_allEq alpha 1 _ h1a hlenok p hp]
            simp only [one_mul])
        rw [hupd]
      · have h1a : ¬ alpha.allEq 1 = true := by
          intro hcontra
          exact hz (Alpha.allEq_zero_of_one_of_neg_one alpha hcontra hm1)
        rw [if_neg h1a, if_pos hm1]
        have hupd := selUpd_congr
          (bufAt (cow s h).1 (cow s h).2.array).rows (ind.sel h.len)
          (fun p row => List.zipWith (fun t b => t - b) row
            (brow ((bufAt (cow s h).1 x.array).rows.take x.len) p))
          (fun p row => List.zipWith (fun t b => t + alpha.coeff p * b) row
            (brow ((bufAt (cow s h).1 x.array).rows.take x.len) p))
          (by
            intro p row hp
            simp only []
            rw [Alpha.coeff_of_allEq alpha (-1) _ hm1 hlenok p hp]
            simp only [neg_one_mul, ← sub_eq_add_neg])
        rw [hupd]
  · intro hz
    have heq : axpy s h alpha x ind = ((cow s h).1, (cow s h).2) := by
      simp only [axpy, hz, eq_self_iff_true, if_true]
    rw [heq]
    constructor
    · show (bufAt (cow s h).1 (cow s h).2.array).rows.take (cow s h).2.len = _
      rw [cow_buf_self, cow_len]
      rfl
    · exact cow_len s h

theorem C7_axpy_fast_paths_witness :
    (alphaLenOk (Alpha.scalar 1) ((Ind.all.sel 1).length)
      ∧ (Alpha.scalar 1).allEq 1 = true ∧ (Alpha.scalar 0).allEq 0 = true)
    ∧ axpy (⟨[⟨1, [[2]]⟩, ⟨1, [[3]]⟩], [1, 1]⟩ : Store) (⟨0, 0, 1⟩ : Handle)
        (Alpha.scalar 1) (⟨1, 1, 1⟩ : Handle) Ind.all
      = axpyGeneric (⟨[⟨1, [[2]]⟩, ⟨1, [[3]]⟩], [1, 1]⟩ : Store) (⟨0, 0, 1⟩ : Handle)
        (Alpha.scalar 1) (⟨1, 1, 1⟩ : Handle) Ind.all
    ∧ logicalRows
        (axpy (⟨[⟨1, [[2]]⟩, ⟨1, [[3]]⟩], [1, 1]⟩ : Store) (⟨0, 0, 1⟩ : Handle)
          (Alpha.scalar 0) (⟨1, 1, 1⟩ : Handle) Ind.all).1
        (axpy (⟨[⟨1, [[2]]⟩, ⟨1, [[3]]⟩], [1, 1]⟩ : Store) (⟨0, 0, 1⟩ : Handle)
          (Alpha.scalar 0) (⟨1, 1, 1⟩ : Handle) Ind.all).2
      = logicalRows (⟨[⟨1, [[2]]⟩, ⟨1, [[3]]⟩], [1, 1]⟩ : Store)
          (⟨0, 0, 1⟩ : Handle) := by
  refine ⟨⟨trivial, by decide, by decide⟩, ?_, ?_⟩
  · exact (C7_axpy_fast_paths (⟨[⟨1, [[2]]⟩, ⟨1, [[3]]⟩], [1, 1]⟩ : Store)
      (⟨0, 0, 1⟩ : Handle) (⟨1, 1, 1⟩ : Handle) Ind.all (Alpha.scalar 1)
      trivial).1 (Or.inl (by decide))
  · exact ((C7_axpy_fast_paths (⟨[⟨1, [[2]]⟩, ⟨1, [[3]]⟩], [1, 1]⟩ : Store)
      (⟨0, 0, 1⟩ : Handle) (⟨1, 1, 1⟩ : Handle) Ind.all (Alpha.scalar 0)
      trivial).2 (by decide)).1

end Pymor
